import Mathlib

/-!
Verification of the GAP Benchmark Suite graph-builder core (`src/builder.h`,
`src/bucket.h`) against its natural-language specification.

The C++ code is shallowly embedded over `Nat`-valued node ids.  Unweighted
instantiation (`NodeID_ = DestID_`) is modelled, so `GetSource(e) = e.u`.
Parallel-for loops with commuting bodies are embedded as sequential folds;
the atomic `fetch_and_add` slot allocation of `MakeCSR` is embedded as a
sequential pass over the placement list (one state update per placement),
which realizes one admissible interleaving, and the uniqueness of slots is
proved from the cursor-table invariant.  CSR arrays become Lean lists; the
raw neighbor buffer becomes a map `Nat → Option Nat` (a slot never written
reads back `none`).
-/

/-- An edge `(u, v)`: ordered pair of node ids (`EdgePair` of `src/builder.h`). -/
abbrev Edge := Nat × Nat

/-- An edge list (`pvector<Edge>` of `src/builder.h`). -/
abbrev EdgeList := List Edge

/-- One `fetch_and_add(degrees[i], 1)` on a degree array
(`src/builder.h:64,66`); out-of-range `i` is left as a no-op (the C++ code
never indexes out of range when all endpoints are below `num_nodes_`). -/
def bump (l : List Nat) (i : Nat) : List Nat :=
  l.set i (l.getD i 0 + 1)

/-- Loop body of `BuilderBase::CountDegrees` (`src/builder.h:61-67`): the two
conditional atomic increments for one edge. -/
def countStep (symmetrize transpose : Bool) (degs : List Nat) (e : Edge) : List Nat :=
  let d1 := if symmetrize || (!symmetrize && !transpose) then bump degs e.1 else degs
  if symmetrize || (!symmetrize && transpose) then bump d1 e.2 else d1

/-- Embeds `BuilderBase::CountDegrees` (`src/builder.h:58-69`): a degree
array of length `N` initialized to zero, incremented per edge according to
the symmetrize/transpose flags. -/
def CountDegrees (N : Nat) (symmetrize transpose : Bool) (el : EdgeList) : List Nat :=
  el.foldl (countStep symmetrize transpose) (List.replicate N 0)

/-- The accumulating loop of `BuilderBase::PrefixSum` (`src/builder.h:71-81`):
emits the running total before adding each degree, and the final total as the
last (sentinel) entry. -/
def prefixSumGo : List Nat → Nat → List Nat
  | [], total => [total]
  | d :: ds, total => total :: prefixSumGo ds (total + d)

/-- Embeds `BuilderBase::PrefixSum` (`src/builder.h:71-81`). -/
def PrefixSum (degrees : List Nat) : List Nat :=
  prefixSumGo degrees 0

/-- Embeds `BuilderBase::ParallelPrefixSum` (`src/builder.h:83-115`):
block-local sums (phase 1), a serial prefix over the per-block totals
(phase 2), and a per-block fill of the final offsets (phase 3), with the
sentinel entry `prefix[size] = bulk_prefix[num_blocks]`. -/
def ParallelPrefixSum (degrees : List Nat) : List Nat :=
  let blockSize := 2 ^ 20
  let numBlocks := (degrees.length + blockSize - 1) / blockSize
  let localSums := (List.range numBlocks).map
      (fun b => ((degrees.drop (b * blockSize)).take blockSize).sum)
  let bulk := prefixSumGo localSums 0
  ((List.range numBlocks).map
      (fun b => (prefixSumGo ((degrees.drop (b * blockSize)).take blockSize)
                   (bulk.getD b 0)).dropLast)).flatten
    ++ [bulk.getLastD 0]

/-- The (cursor, value) placements one edge generates in the scatter loop of
`BuilderBase::MakeCSR` (`src/builder.h:171-178`): under the forward condition
the destination `e.v` is placed at node `e.u`'s cursor, and under the
transpose condition the source record `GetSource(e) = e.u` is placed at node
`e.v`'s cursor. -/
def edgePlacements (symmetrize transpose : Bool) (e : Edge) : List (Nat × Nat) :=
  (if symmetrize || (!symmetrize && !transpose) then [(e.1, e.2)] else [])
    ++ (if symmetrize || (!symmetrize && transpose) then [(e.2, e.1)] else [])

/-- All placements of the `MakeCSR` scatter loop, in edge-list order. -/
def placements (symmetrize transpose : Bool) (el : EdgeList) : List (Nat × Nat) :=
  (el.map (edgePlacements symmetrize transpose)).flatten

/-- The scatter loop of `BuilderBase::MakeCSR` (`src/builder.h:170-178`) over
an explicit placement list: `cur` is the offset array consumed as a mutable
cursor table, `mem` the raw neighbor buffer.  Each placement stores its value
at the cursor of its node and advances that cursor (`fetch_and_add`). -/
def scatterGo : List (Nat × Nat) → (Nat → Nat) → (Nat → Option Nat) →
    (Nat → Nat) × (Nat → Option Nat)
  | [], cur, mem => (cur, mem)
  | p :: ps, cur, mem =>
      scatterGo ps (Function.update cur p.1 (cur p.1 + 1))
        (Function.update mem (cur p.1) (some p.2))

/-- The sequence of slots the scatter loop assigns, in placement order. -/
def scatterSlots : List (Nat × Nat) → (Nat → Nat) → List Nat
  | [], _ => []
  | p :: ps, cur => cur p.1 :: scatterSlots ps (Function.update cur p.1 (cur p.1 + 1))

/-- Number of placements owned by node `u`. -/
def countAt (ps : List (Nat × Nat)) (u : Nat) : Nat :=
  (ps.filter (fun p => p.1 == u)).length

/-- The values placed at node `u`, in placement order. -/
def valsAt (ps : List (Nat × Nat)) (u : Nat) : List Nat :=
  (ps.filter (fun p => p.1 == u)).map Prod.snd

/-- The neighbor buffer `neighs` produced by `BuilderBase::MakeCSR`
(`src/builder.h:164-179`) for node count `N`: degrees are counted, offsets
computed by `ParallelPrefixSum`, and every placement scattered through the
cursor table initialized to those offsets. -/
def makeCSRmem (N : Nat) (symmetrize transpose : Bool) (el : EdgeList) : Nat → Option Nat :=
  (scatterGo (placements symmetrize transpose el)
    (fun u => (ParallelPrefixSum (CountDegrees N symmetrize transpose el)).getD u 0)
    (fun _ => none)).2

/-- Node `u`'s slice of the scattered neighbor buffer, read through the
index array built from the original (pre-mutation) offsets
(`GenIndex` snapshot, `src/builder.h:169`): positions
`offsets[u], ..., offsets[u] + degrees[u] - 1`. -/
def csrSlice (N : Nat) (symmetrize transpose : Bool) (el : EdgeList) (u : Nat) :
    List (Option Nat) :=
  (List.range ((CountDegrees N symmetrize transpose el).getD u 0)).map
    (fun i => makeCSRmem N symmetrize transpose el
      ((ParallelPrefixSum (CountDegrees N symmetrize transpose el)).getD u 0 + i))

/-- Embeds `BuilderBase::FindMaxNodeID` (`src/builder.h:47-56`): max
reduction over all endpoints, starting from `max_seen = 0`. -/
def FindMaxNodeID (el : EdgeList) : Nat :=
  el.foldl (fun m e => max (max m e.1) e.2) 0

/-- Embeds `BuilderBase::MakeGraphFromEL` (`src/builder.h:181-200`) for the
symmetrized (undirected) case with node count not supplied: the node count
is discovered as `FindMaxNodeID(el) + 1`, the forward CSR is built by
`MakeCSR`, and the result is the list of per-node adjacency slices. -/
def makeGraphFromEL (symmetrize : Bool) (el : EdgeList) : List (List Nat) :=
  let N := FindMaxNodeID el + 1
  let degrees := CountDegrees N symmetrize false el
  let offsets := ParallelPrefixSum degrees
  let mem := (scatterGo (placements symmetrize false el)
      (fun u => offsets.getD u 0) (fun _ => none)).2
  (List.range N).map
    (fun u => (List.range (degrees.getD u 0)).map
      (fun i => (mem (offsets.getD u 0 + i)).getD 0))

/-- The scan of `std::unique` (`src/builder.h:131`) after the first element:
drops each element equal to the last kept one. -/
def squishUniqueGo (prev : Nat) : List Nat → List Nat
  | [] => []
  | b :: rest => if b = prev then squishUniqueGo prev rest else b :: squishUniqueGo b rest

/-- Embeds `std::unique` on a node's slice (`src/builder.h:131`): removes
adjacent duplicates, keeping the first of each run. -/
def squishUnique : List Nat → List Nat
  | [] => []
  | a :: rest => a :: squishUniqueGo a rest

/-- The per-node cleaning of `BuilderBase::SquishCSR` (`src/builder.h:130-133`):
`std::sort`, then `std::unique`, then `std::remove(_, _, n)` (drop entries
equal to the node's own id `n`). -/
def squishRow (n : Nat) (row : List Nat) : List Nat :=
  (squishUnique (List.insertionSort (· ≤ ·) row)).filter (fun v => !(v == n))

/-- Embeds `BuilderBase::SquishCSR` (`src/builder.h:117-146`) on one
adjacency side given as per-node slices: each node's slice is cleaned
independently and the cleaned prefixes are repacked (the repack copies the
cleaned rows verbatim, so the result is the list of cleaned rows). -/
def squishCSR (rows : List (List Nat)) : List (List Nat) :=
  (List.range rows.length).map (fun n => squishRow n (rows.getD n []))

/-- Modelled from the spec: `CSRGraph` (`graph.h`, absent from `src/`) per
spec §3 — node count implicit in the row list, a directedness flag, the
outgoing adjacency rows, and an optional incoming adjacency pair (`none`
models an absent or never-assigned `in_index`/`in_neighs` pair). -/
structure CSRGraphM where
  directed : Bool
  outRows : List (List Nat)
  inRows : Option (List (List Nat))
deriving Repr, DecidableEq

/-- Embeds `BuilderBase::SquishGraph` (`src/builder.h:148-162`) with the
`invert` template parameter explicit: the outgoing side is always squished;
for a directed graph the incoming side is squished only when `invert` is
true — otherwise the `in_index`/`in_neighs` locals passed to the returned
graph's constructor are never assigned, modelled as `none`. -/
def squishGraphM (invert : Bool) (g : CSRGraphM) : CSRGraphM :=
  let outSq := squishCSR g.outRows
  if g.directed then
    { directed := true, outRows := outSq,
      inRows := if invert then some (squishCSR (g.inRows.getD [])) else none }
  else
    { directed := false, outRows := outSq, inRows := none }

/-- The comparison `std::greater<std::pair<long, NodeID_>>` used by
`RelabelByDegree` (`src/builder.h:236-237`), as the non-strict sort order it
induces: lexicographically descending (degree first, then id). -/
def ge2 (a b : Nat × Nat) : Prop :=
  b.1 < a.1 ∨ (a.1 = b.1 ∧ b.2 ≤ a.2)

instance : DecidableRel ge2 := fun a b => by
  unfold ge2; infer_instance

instance : IsTotal (Nat × Nat) ge2 := by
  constructor; intro a b; unfold ge2; omega

instance : IsTrans (Nat × Nat) ge2 := by
  constructor; intro a b c; unfold ge2; omega

/-- The `(out_degree(n), n)` pairs of `RelabelByDegree`
(`src/builder.h:232-235`), sorted descending (`src/builder.h:236-237`). -/
def degIdSorted (rows : List (List Nat)) : List (Nat × Nat) :=
  List.insertionSort ge2
    ((List.range rows.length).map (fun n => ((rows.getD n []).length, n)))

/-- The new-id translation of `RelabelByDegree` (`src/builder.h:239-244`):
`new_ids[degree_id_pairs[n].second] = n`, i.e. a node's new id is its
position in the descending-sorted pair list. -/
def newIds (rows : List (List Nat)) (u : Nat) : Nat :=
  ((degIdSorted rows).map Prod.snd).indexOf u

/-- The relabeled degree array of `RelabelByDegree` (`src/builder.h:242`):
`degrees[n] = degree_id_pairs[n].first`. -/
def relabelDegrees (rows : List (List Nat)) : List Nat :=
  (degIdSorted rows).map Prod.fst

/-- The placements of the relabel scatter loop (`src/builder.h:248-251`):
for every old node `u` and neighbor `v`, the value `new_ids[v]` is placed at
node `new_ids[u]`'s cursor. -/
def relabelPlacements (rows : List (List Nat)) : List (Nat × Nat) :=
  ((List.range rows.length).map
    (fun u => (rows.getD u []).map
      (fun v => (newIds rows u, newIds rows v)))).flatten

/-- Embeds `BuilderBase::RelabelByDegree` (`src/builder.h:222-257`) on an
undirected graph given as per-node rows: offsets of the relabeled degrees,
scatter of every translated neighbor through the cursor table, then
`std::sort` of each new slice (`src/builder.h:252`). -/
def relabelRows (rows : List (List Nat)) : List (List Nat) :=
  let degrees := relabelDegrees rows
  let offsets := ParallelPrefixSum degrees
  let mem := (scatterGo (relabelPlacements rows)
      (fun w => offsets.getD w 0) (fun _ => none)).2
  (List.range rows.length).map
    (fun w => List.insertionSort (· ≤ ·)
      ((List.range (degrees.getD w 0)).map
        (fun i => (mem (offsets.getD w 0 + i)).getD 0)))

/-- Embeds the directedness guard of `BuilderBase::RelabelByDegree`
(`src/builder.h:225-228`): a directed graph is reported and the process
exits with status `-11` (modelled as `Except.error (-11)`); otherwise the
relabeled undirected graph is produced. -/
def RelabelByDegree (g : CSRGraphM) : Except Int CSRGraphM :=
  if g.directed then Except.error (-11)
  else Except.ok { directed := false, outRows := relabelRows g.outRows, inRows := none }

/-- A `Bucket::iterator` (`src/bucket.h:59-153`): a chunk index and an
offset within that chunk. -/
structure BIter where
  chunkIndex : Nat
  chunkOffset : Nat
deriving Repr, DecidableEq

/-- Embeds `Bucket::iterator::operator<` (`src/bucket.h:132-137`) exactly as
written: equal chunk indices compare the offsets with `==`. -/
def iterLt (a b : BIter) : Bool :=
  if a.chunkIndex = b.chunkIndex then a.chunkOffset == b.chunkOffset
  else decide (a.chunkIndex < b.chunkIndex)

/-- Embeds `Bucket::iterator::operator-` (`src/bucket.h:108-129`): equal
chunks subtract offsets; otherwise the two while loops accumulate the sizes
of the chunks strictly between the chunk indices. -/
def iterSub (chunks : List (List Nat)) (a b : BIter) : Int :=
  if a.chunkIndex = b.chunkIndex then (a.chunkOffset : Int) - (b.chunkOffset : Int)
  else if b.chunkIndex < a.chunkIndex then
    (a.chunkOffset : Int)
      + ((((chunks.drop b.chunkIndex).take (a.chunkIndex - b.chunkIndex)).map
            List.length).sum : Nat)
      - (b.chunkOffset : Int)
  else
    ((chunks.getD a.chunkIndex []).length : Int) - (a.chunkOffset : Int)
      + ((((chunks.drop (a.chunkIndex + 1)).take
            (b.chunkIndex - (a.chunkIndex + 1))).map List.length).sum : Nat)
      + (b.chunkOffset : Int)

/-- The logical position of a bucket iterator in the flattened view: the
total length of the chunks before its chunk, plus its offset. -/
def iterPos (chunks : List (List Nat)) (it : BIter) : Nat :=
  ((chunks.take it.chunkIndex).map List.length).sum + it.chunkOffset

/-- Separation of cursor intervals: distinct nodes' slot ranges
`[cur u, cur u + countAt ps u)` never collide.  This is the invariant the
offset table establishes for the scatter loop. -/
def SlotSep (cur : Nat → Nat) (ps : List (Nat × Nat)) : Prop :=
  ∀ u v, u ≠ v → ∀ i j, i < countAt ps u → j < countAt ps v → cur u + i ≠ cur v + j

/-! ### List helper lemmas -/

theorem getD_range_map {α : Type} (f : Nat → α) (d : α) {n N : Nat} (h : n < N) :
    ((List.range N).map f).getD n d = f n := by
  have hlen : n < ((List.range N).map f).length := by simpa using h
  rw [List.getD_eq_getElem _ _ hlen]
  simp

theorem range_map_getElem? {α : Type} (l : List α) :
    (List.range l.length).map (fun i => l[i]?) = l.map some := by
  induction l with
  | nil => simp
  | cons a l ih =>
    rw [List.length_cons, List.range_succ_eq_map, List.map_cons, List.map_map,
      List.map_cons]
    congr 1
    · simp
    · have hc : ((fun i => (a :: l)[i]?) ∘ Nat.succ) = fun i => l[i]? := by
        funext i; simp
      rw [hc, ih]

theorem range_map_getD {α : Type} (l : List α) (d : α) :
    (List.range l.length).map (fun i => l.getD i d) = l := by
  induction l with
  | nil => simp
  | cons a l ih =>
    rw [List.length_cons, List.range_succ_eq_map, List.map_cons, List.map_map]
    have hc : ((fun i => (a :: l).getD i d) ∘ Nat.succ) = fun i => l.getD i d := by
      funext i; simp [List.getD_cons_succ]
    rw [hc, ih]
    simp

theorem sum_ite_unique (c : Nat → Nat) {N u0 : Nat} (h : u0 < N) :
    ((List.range N).map (fun u => if u = u0 then c u else 0)).sum = c u0 := by
  induction N with
  | zero => omega
  | succ n ih =>
    rw [List.range_succ, List.map_append, List.sum_append]
    rcases Nat.lt_or_ge u0 n with hlt | hge
    · rw [ih hlt]
      simp only [List.map_cons, List.map_nil]
      have : ¬ (n = u0) := by omega
      simp [this]
    · have hu0 : u0 = n := by omega
      subst hu0
      have hz : ∀ u ∈ List.range u0, (if u = u0 then c u else 0) = 0 := by
        intro u hu
        have : u < u0 := List.mem_range.mp hu
        have : ¬ (u = u0) := by omega
        simp [this]
      rw [List.map_congr_left hz]
      simp

/-! ### Prefix-sum lemmas -/

theorem prefixSumGo_ne_nil (ds : List Nat) (t : Nat) : prefixSumGo ds t ≠ [] := by
  cases ds <;> simp [prefixSumGo]

theorem prefixSumGo_length (ds : List Nat) : ∀ t, (prefixSumGo ds t).length = ds.length + 1 := by
  induction ds with
  | nil => intro t; rfl
  | cons d ds ih => intro t; simp [prefixSumGo, ih]

theorem prefixSumGo_getD (ds : List Nat) :
    ∀ t i, i ≤ ds.length → (prefixSumGo ds t).getD i 0 = t + (ds.take i).sum := by
  induction ds with
  | nil =>
    intro t i h
    simp only [List.length_nil, Nat.le_zero] at h
    subst h
    simp [prefixSumGo]
  | cons d ds ih =>
    intro t i h
    cases i with
    | zero => simp [prefixSumGo]
    | succ j =>
      have hj : j ≤ ds.length := by simpa using h
      simp only [prefixSumGo, List.getD_cons_succ, List.take_succ_cons, List.sum_cons]
      rw [ih (t + d) j hj]
      omega

theorem prefixSumGo_getLastD (ds : List Nat) :
    ∀ t d, (prefixSumGo ds t).getLastD d = t + ds.sum := by
  induction ds with
  | nil => intro t d; simp [prefixSumGo]
  | cons x ds ih =>
    intro t d
    simp only [prefixSumGo, List.getLastD_cons, List.sum_cons]
    rw [ih (t + x) t]
    omega

theorem prefixSumGo_append (a b : List Nat) :
    ∀ t, prefixSumGo (a ++ b) t = (prefixSumGo a t).dropLast ++ prefixSumGo b (t + a.sum) := by
  induction a with
  | nil => intro t; simp [prefixSumGo]
  | cons d a ih =>
    intro t
    obtain ⟨hd, tl, hcons⟩ := List.exists_cons_of_ne_nil (prefixSumGo_ne_nil a (t + d))
    have h1 : prefixSumGo ((d :: a) ++ b) t = t :: prefixSumGo (a ++ b) (t + d) := rfl
    have h2 : prefixSumGo (d :: a) t = t :: prefixSumGo a (t + d) := rfl
    rw [h1, h2, ih (t + d), hcons, List.dropLast_cons₂, ← hcons, List.cons_append]
    have h3 : t + d + a.sum = t + (d :: a).sum := by
      simp only [List.sum_cons]; omega
    rw [h3]

theorem take_sum_succ (l : List Nat) : ∀ i, i < l.length →
    (l.take (i + 1)).sum = (l.take i).sum + l.getD i 0 := by
  induction l with
  | nil => intro i h; simp at h
  | cons a l ih =>
    intro i h
    cases i with
    | zero => simp
    | succ j =>
      have hj : j < l.length := by simpa using h
      simp only [List.take_succ_cons, List.sum_cons, List.getD_cons_succ]
      rw [ih j hj]
      omega

theorem take_sum_le (l : List Nat) {i j : Nat} (h : i ≤ j) :
    (l.take i).sum ≤ (l.take j).sum := by
  have hj : j = i + (j - i) := by omega
  rw [hj, List.take_add, List.sum_append]
  omega

/-! ### Serial vs. block-parallel prefix sum -/

theorem ceilDiv_succ {bs m : Nat} (hbs : 0 < bs) (hm : 0 < m) :
    (m + bs - 1) / bs = (m - bs + bs - 1) / bs + 1 := by
  rcases Nat.lt_or_ge m bs with hlt | hge
  · have h0 : m - bs = 0 := by omega
    rw [h0]
    have h1 : (0 + bs - 1) / bs = 0 := Nat.div_eq_of_lt (by omega)
    have h2 : (m + bs - 1) / bs = 1 := by
      have lo : 1 * bs ≤ m + bs - 1 := by omega
      have hi : m + bs - 1 < (1 + 1) * bs := by omega
      exact Nat.div_eq_of_lt_le lo hi
    omega
  · have h3 : m + bs - 1 = (m - bs + bs - 1) + bs := by omega
    rw [h3, Nat.add_div_right _ hbs]

theorem parallelGo_eq (bs : Nat) (hbs : 0 < bs) :
    ∀ nb (l : List Nat) (t : Nat), nb = (l.length + bs - 1) / bs →
    ((List.range nb).map
        (fun b => (prefixSumGo ((l.drop (b * bs)).take bs)
          ((prefixSumGo ((List.range nb).map
              (fun c => ((l.drop (c * bs)).take bs).sum)) t).getD b 0)).dropLast)).flatten
      ++ [(prefixSumGo ((List.range nb).map
            (fun c => ((l.drop (c * bs)).take bs).sum)) t).getLastD 0]
      = prefixSumGo l t := by
  intro nb
  induction nb with
  | zero =>
    intro l t hnb
    have hz : l.length + bs - 1 < bs := (Nat.div_eq_zero_iff hbs).mp hnb.symm
    have hl : l = [] := by
      apply List.eq_nil_of_length_eq_zero
      omega
    subst hl
    simp [prefixSumGo]
  | succ n ih =>
    intro l t hnb
    have hlpos : 0 < l.length := by
      by_contra hc
      have hl0 : l.length = 0 := by omega
      rw [hl0] at hnb
      have hz : (0 + bs - 1) / bs = 0 := Nat.div_eq_of_lt (by omega)
      omega
    have hrec : n = ((l.drop bs).length + bs - 1) / bs := by
      have hcd := @ceilDiv_succ bs l.length hbs hlpos
      rw [List.length_drop]
      omega
    have hsums :
        (List.range (n + 1)).map (fun c => ((l.drop (c * bs)).take bs).sum)
          = (l.take bs).sum
            :: (List.range n).map (fun c => (((l.drop bs).drop (c * bs)).take bs).sum) := by
      rw [List.range_succ_eq_map, List.map_cons, List.map_map]
      congr 1
      · simp
      · congr 1
        funext c
        simp only [Function.comp_apply]
        rw [List.drop_drop, Nat.succ_mul, Nat.add_comm bs (c * bs)]
    have hseg :
        (List.range (n + 1)).map
            (fun b => (prefixSumGo ((l.drop (b * bs)).take bs)
              ((prefixSumGo ((List.range (n + 1)).map
                  (fun c => ((l.drop (c * bs)).take bs).sum)) t).getD b 0)).dropLast)
          = (prefixSumGo (l.take bs) t).dropLast
            :: (List.range n).map
              (fun b => (prefixSumGo (((l.drop bs).drop (b * bs)).take bs)
                ((prefixSumGo ((List.range n).map
                    (fun c => (((l.drop bs).drop (c * bs)).take bs).sum))
                  (t + (l.take bs).sum)).getD b 0)).dropLast) := by
      rw [hsums]
      rw [List.range_succ_eq_map, List.map_cons, List.map_map]
      congr 1
      · simp [prefixSumGo]
      · congr 1
        funext b
        simp only [Function.comp_apply]
        have h1 : prefixSumGo ((l.take bs).sum
              :: (List.range n).map (fun c => (((l.drop bs).drop (c * bs)).take bs).sum)) t
            = t :: prefixSumGo ((List.range n).map
                (fun c => (((l.drop bs).drop (c * bs)).take bs).sum))
                (t + (l.take bs).sum) := rfl
        rw [h1, List.getD_cons_succ, List.drop_drop, Nat.succ_mul,
          Nat.add_comm bs (b * bs)]
    have hlast :
        (prefixSumGo ((List.range (n + 1)).map
            (fun c => ((l.drop (c * bs)).take bs).sum)) t).getLastD 0
          = (prefixSumGo ((List.range n).map
              (fun c => (((l.drop bs).drop (c * bs)).take bs).sum))
              (t + (l.take bs).sum)).getLastD 0 := by
      rw [hsums, prefixSumGo_getLastD, prefixSumGo_getLastD]
      simp only [List.sum_cons]
      omega
    rw [hseg, hlast, List.flatten_cons, List.append_assoc]
    rw [ih (l.drop bs) (t + (l.take bs).sum) hrec]
    rw [← prefixSumGo_append, List.take_append_drop]

theorem ParallelPrefixSum_eq (degrees : List Nat) :
    ParallelPrefixSum degrees = PrefixSum degrees := by
  unfold ParallelPrefixSum PrefixSum
  exact parallelGo_eq (2 ^ 20) (by norm_num)
    ((degrees.length + 2 ^ 20 - 1) / 2 ^ 20) degrees 0 rfl

/-! ### Scatter-loop correctness -/

theorem countAt_cons_self (p : Nat × Nat) (ps : List (Nat × Nat)) :
    countAt (p :: ps) p.1 = countAt ps p.1 + 1 := by
  simp [countAt, List.filter_cons]

theorem countAt_cons_ne (p : Nat × Nat) (ps : List (Nat × Nat)) {u : Nat}
    (h : ¬ (p.1 = u)) : countAt (p :: ps) u = countAt ps u := by
  simp [countAt, List.filter_cons, h]

theorem valsAt_cons_eq (p : Nat × Nat) (ps : List (Nat × Nat)) {u : Nat}
    (h : p.1 = u) : valsAt (p :: ps) u = p.2 :: valsAt ps u := by
  simp [valsAt, List.filter_cons, h]

theorem valsAt_cons_ne (p : Nat × Nat) (ps : List (Nat × Nat)) {u : Nat}
    (h : ¬ (p.1 = u)) : valsAt (p :: ps) u = valsAt ps u := by
  simp [valsAt, List.filter_cons, h]

theorem countAt_eq_length_valsAt (ps : List (Nat × Nat)) (u : Nat) :
    countAt ps u = (valsAt ps u).length := by
  simp [countAt, valsAt]

theorem scatterGo_fst (ps : List (Nat × Nat)) : ∀ (cur : Nat → Nat) (mem : Nat → Option Nat)
    (u : Nat), (scatterGo ps cur mem).1 u = cur u + countAt ps u := by
  induction ps with
  | nil => intro cur mem u; simp [scatterGo, countAt]
  | cons p ps ih =>
    intro cur mem u
    have hgo : scatterGo (p :: ps) cur mem
        = scatterGo ps (Function.update cur p.1 (cur p.1 + 1))
            (Function.update mem (cur p.1) (some p.2)) := rfl
    rw [hgo, ih]
    rcases Decidable.em (p.1 = u) with hpu | hpu
    · subst hpu
      rw [Function.update_same, countAt_cons_self]
      omega
    · rw [Function.update_noteq (fun hh => hpu hh.symm), countAt_cons_ne p ps hpu]

theorem sep_tail {cur : Nat → Nat} {p : Nat × Nat} {ps : List (Nat × Nat)}
    (h : SlotSep cur (p :: ps)) : SlotSep (Function.update cur p.1 (cur p.1 + 1)) ps := by
  intro u v huv i j hi hj
  rcases Decidable.em (p.1 = u) with hpu | hpu <;> rcases Decidable.em (p.1 = v) with hpv | hpv
  · exact absurd (hpu.symm.trans hpv) huv
  · subst hpu
    rw [Function.update_same, Function.update_noteq (fun hh => hpv hh.symm)]
    have hb1 : i + 1 < countAt (p :: ps) p.1 := by rw [countAt_cons_self]; omega
    have hb2 : j < countAt (p :: ps) v := by rw [countAt_cons_ne p ps hpv]; omega
    have hne := h p.1 v huv (i + 1) j hb1 hb2
    omega
  · subst hpv
    rw [Function.update_same, Function.update_noteq (fun hh => hpu hh.symm)]
    have hb1 : i < countAt (p :: ps) u := by rw [countAt_cons_ne p ps hpu]; omega
    have hb2 : j + 1 < countAt (p :: ps) p.1 := by rw [countAt_cons_self]; omega
    have hne := h u p.1 huv i (j + 1) hb1 hb2
    omega
  · rw [Function.update_noteq (fun hh => hpu hh.symm),
      Function.update_noteq (fun hh => hpv hh.symm)]
    have hb1 : i < countAt (p :: ps) u := by rw [countAt_cons_ne p ps hpu]; omega
    have hb2 : j < countAt (p :: ps) v := by rw [countAt_cons_ne p ps hpv]; omega
    exact h u v huv i j hb1 hb2

theorem scatterGo_mem (ps : List (Nat × Nat)) : ∀ (cur : Nat → Nat) (mem : Nat → Option Nat),
    SlotSep cur ps →
    ((∀ u i, i < countAt ps u → (scatterGo ps cur mem).2 (cur u + i) = (valsAt ps u)[i]?)
      ∧ (∀ s, (∀ u i, i < countAt ps u → s ≠ cur u + i) → (scatterGo ps cur mem).2 s = mem s)) := by
  induction ps with
  | nil =>
    intro cur mem _
    constructor
    · intro u i hi
      simp [countAt] at hi
    · intro s _
      rfl
  | cons p ps ih =>
    intro cur mem hsep
    have hsep2 := sep_tail hsep
    have hgo : scatterGo (p :: ps) cur mem
        = scatterGo ps (Function.update cur p.1 (cur p.1 + 1))
            (Function.update mem (cur p.1) (some p.2)) := rfl
    obtain ⟨iha, ihb⟩ := ih (Function.update cur p.1 (cur p.1 + 1))
      (Function.update mem (cur p.1) (some p.2)) hsep2
    constructor
    · intro u i hi
      rcases Decidable.em (p.1 = u) with hpu | hpu
      · subst hpu
        cases i with
        | zero =>
          have hside : ∀ v j, j < countAt ps v →
              cur p.1 ≠ Function.update cur p.1 (cur p.1 + 1) v + j := by
            intro v j hj
            rcases Decidable.em (p.1 = v) with hpv | hpv
            · subst hpv
              rw [Function.update_same]
              omega
            · rw [Function.update_noteq (fun hh => hpv hh.symm)]
              have hb1 : 0 < countAt (p :: ps) p.1 := by rw [countAt_cons_self]; omega
              have hb2 : j < countAt (p :: ps) v := by rw [countAt_cons_ne p ps hpv]; omega
              have hne := hsep p.1 v (fun hh => hpv hh) 0 j hb1 hb2
              omega
          have hz : cur p.1 + 0 = cur p.1 := rfl
          rw [hgo, hz, ihb (cur p.1) hside, Function.update_same,
            valsAt_cons_eq p ps rfl]
          simp
        | succ i2 =>
          have hi2 : i2 < countAt ps p.1 := by
            rw [countAt_cons_self] at hi
            omega
          have hv := iha p.1 i2 hi2
          rw [Function.update_same] at hv
          have harr : cur p.1 + (i2 + 1) = cur p.1 + 1 + i2 := by omega
          rw [hgo, harr, hv, valsAt_cons_eq p ps rfl, List.getElem?_cons_succ]
      · have hi2 : i < countAt ps u := by
          rw [countAt_cons_ne p ps hpu] at hi
          exact hi
        have hv := iha u i hi2
        rw [Function.update_noteq (fun hh => hpu hh.symm)] at hv
        rw [hgo, hv, valsAt_cons_ne p ps hpu]
    · intro s hs
      have hs2 : ∀ v j, j < countAt ps v →
          s ≠ Function.update cur p.1 (cur p.1 + 1) v + j := by
        intro v j hj
        rcases Decidable.em (p.1 = v) with hpv | hpv
        · subst hpv
          rw [Function.update_same]
          have hb : j + 1 < countAt (p :: ps) p.1 := by rw [countAt_cons_self]; omega
          have hne := hs p.1 (j + 1) hb
          omega
        · rw [Function.update_noteq (fun hh => hpv hh.symm)]
          have hb : j < countAt (p :: ps) v := by rw [countAt_cons_ne p ps hpv]; omega
          exact hs v j hb
      have hzero : s ≠ cur p.1 := by
        have hb : 0 < countAt (p :: ps) p.1 := by rw [countAt_cons_self]; omega
        have hne := hs p.1 0 hb
        omega
      rw [hgo, ihb s hs2, Function.update_noteq hzero]

theorem scatterSlots_mem (ps : List (Nat × Nat)) : ∀ (cur : Nat → Nat) (s : Nat),
    s ∈ scatterSlots ps cur → ∃ v j, j < countAt ps v ∧ s = cur v + j := by
  induction ps with
  | nil =>
    intro cur s h
    simp [scatterSlots] at h
  | cons p ps ih =>
    intro cur s h
    have hgo : scatterSlots (p :: ps) cur
        = cur p.1 :: scatterSlots ps (Function.update cur p.1 (cur p.1 + 1)) := rfl
    rw [hgo] at h
    rcases List.mem_cons.mp h with h0 | h1
    · refine ⟨p.1, 0, ?_, ?_⟩
      · rw [countAt_cons_self]
        omega
      · omega
    · obtain ⟨v, j, hj, hval⟩ := ih _ s h1
      rcases Decidable.em (p.1 = v) with hpv | hpv
      · subst hpv
        rw [Function.update_same] at hval
        refine ⟨p.1, j + 1, ?_, ?_⟩
        · rw [countAt_cons_self]
          omega
        · omega
      · rw [Function.update_noteq (fun hh => hpv hh.symm)] at hval
        refine ⟨v, j, ?_, hval⟩
        rw [countAt_cons_ne p ps hpv]
        omega

theorem scatterSlots_nodup (ps : List (Nat × Nat)) : ∀ (cur : Nat → Nat),
    SlotSep cur ps → (scatterSlots ps cur).Nodup := by
  induction ps with
  | nil =>
    intro cur _
    simp [scatterSlots]
  | cons p ps ih =>
    intro cur hsep
    have hgo : scatterSlots (p :: ps) cur
        = cur p.1 :: scatterSlots ps (Function.update cur p.1 (cur p.1 + 1)) := rfl
    rw [hgo, List.nodup_cons]
    constructor
    · intro hmem
      obtain ⟨v, j, hj, hval⟩ := scatterSlots_mem ps _ _ hmem
      rcases Decidable.em (p.1 = v) with hpv | hpv
      · subst hpv
        rw [Function.update_same] at hval
        omega
      · rw [Function.update_noteq (fun hh => hpv hh.symm)] at hval
        have hb1 : 0 < countAt (p :: ps) p.1 := by rw [countAt_cons_self]; omega
        have hb2 : j < countAt (p :: ps) v := by rw [countAt_cons_ne p ps hpv]; omega
        have hne := hsep p.1 v (fun hh => hpv hh) 0 j hb1 hb2
        omega
    · exact ih _ (sep_tail hsep)

/-! ### Degree counting vs. placements -/

theorem bump_length (l : List Nat) (i : Nat) : (bump l i).length = l.length := by
  simp [bump]

theorem bump_getD (l : List Nat) (i u : Nat) (hi : i < l.length) :
    (bump l i).getD u 0 = l.getD u 0 + (if i = u then 1 else 0) := by
  rcases Decidable.em (i = u) with h | h
  · subst h
    have hb : i < (l.set i (l.getD i 0 + 1)).length := by simpa using hi
    rw [bump, List.getD_eq_getElem _ _ hb, List.getElem_set_self hb,
      List.getD_eq_getElem _ _ hi]
    simp
  · rcases Nat.lt_or_ge u l.length with hu | hu
    · have hb : u < (l.set i (l.getD i 0 + 1)).length := by simpa using hu
      rw [bump, List.getD_eq_getElem _ _ hb, List.getElem_set_ne h hb,
        List.getD_eq_getElem _ _ hu]
      simp [h]
    · rw [bump, List.getD_eq_default _ _ (by simpa using hu),
        List.getD_eq_default _ _ hu]
      simp [h]

theorem bump_sum (l : List Nat) : ∀ i, i < l.length → (bump l i).sum = l.sum + 1 := by
  induction l with
  | nil => intro i hi; simp at hi
  | cons a l ih =>
    intro i hi
    cases i with
    | zero =>
      simp [bump]
      omega
    | succ j =>
      have hj : j < l.length := by simpa using hi
      have hgo : bump (a :: l) (j + 1) = a :: bump l j := by
        simp [bump, List.getD_cons_succ]
      rw [hgo, List.sum_cons, List.sum_cons, ih j hj]
      omega

theorem countAt_append (a b : List (Nat × Nat)) (u : Nat) :
    countAt (a ++ b) u = countAt a u + countAt b u := by
  simp [countAt, List.filter_append]

theorem countAt_singleton (a : Nat × Nat) (u : Nat) :
    countAt [a] u = if a.1 = u then 1 else 0 := by
  rcases Decidable.em (a.1 = u) with h | h <;> simp [countAt, List.filter_cons, h]

theorem countAt_eq_zero {ps : List (Nat × Nat)} {u : Nat}
    (h : ∀ p ∈ ps, ¬ (p.1 = u)) : countAt ps u = 0 := by
  unfold countAt
  rw [List.filter_eq_nil_iff.mpr (by intro p hp; simpa using h p hp)]
  rfl

theorem countStep_length (s t : Bool) (degs : List Nat) (e : Edge) :
    (countStep s t degs e).length = degs.length := by
  cases s <;> cases t <;> simp [countStep, bump_length]

theorem countStep_getD (s t : Bool) (degs : List Nat) (e : Edge) (u : Nat)
    (h1 : e.1 < degs.length) (h2 : e.2 < degs.length) :
    (countStep s t degs e).getD u 0
      = degs.getD u 0 + countAt (edgePlacements s t e) u := by
  cases s
  · cases t
    · have hc : countStep false false degs e = bump degs e.1 := rfl
      have hp : edgePlacements false false e = [(e.1, e.2)] := rfl
      rw [hc, hp, bump_getD degs e.1 u h1, countAt_singleton]
    · have hc : countStep false true degs e = bump degs e.2 := rfl
      have hp : edgePlacements false true e = [(e.2, e.1)] := rfl
      rw [hc, hp, bump_getD degs e.2 u h2, countAt_singleton]
  · have hc : countStep true t degs e = bump (bump degs e.1) e.2 := by
      cases t <;> rfl
    have hp : edgePlacements true t e = [(e.1, e.2)] ++ [(e.2, e.1)] := by
      cases t <;> rfl
    rw [hc, hp, bump_getD (bump degs e.1) e.2 u (by rw [bump_length]; exact h2),
      bump_getD degs e.1 u h1, countAt_append, countAt_singleton, countAt_singleton]
    rcases Decidable.em (e.1 = u) with ha | ha <;>
      rcases Decidable.em (e.2 = u) with hb | hb <;> simp [ha, hb]

theorem countStep_sum (s t : Bool) (degs : List Nat) (e : Edge)
    (h1 : e.1 < degs.length) (h2 : e.2 < degs.length) :
    (countStep s t degs e).sum = degs.sum + (if s = true then 2 else 1) := by
  cases s
  · cases t
    · have hc : countStep false false degs e = bump degs e.1 := rfl
      rw [hc, bump_sum degs e.1 h1]
      simp
    · have hc : countStep false true degs e = bump degs e.2 := rfl
      rw [hc, bump_sum degs e.2 h2]
      simp
  · have hc : countStep true t degs e = bump (bump degs e.1) e.2 := by
      cases t <;> rfl
    rw [hc, bump_sum (bump degs e.1) e.2 (by rw [bump_length]; exact h2),
      bump_sum degs e.1 h1]
    simp


theorem countFold_length (s t : Bool) (el : EdgeList) :
    ∀ degs : List Nat, (el.foldl (countStep s t) degs).length = degs.length := by
  induction el with
  | nil => intro degs; rfl
  | cons e el ih =>
    intro degs
    rw [List.foldl_cons, ih (countStep s t degs e), countStep_length]

theorem CountDegrees_length (N : Nat) (s t : Bool) (el : EdgeList) :
    (CountDegrees N s t el).length = N := by
  unfold CountDegrees
  rw [countFold_length]
  simp

theorem replicate_getD (N u : Nat) : (List.replicate N (0 : Nat)).getD u 0 = 0 := by
  rcases Nat.lt_or_ge u N with h | h
  · rw [List.getD_eq_getElem _ _ (by simpa using h)]
    simp
  · rw [List.getD_eq_default _ _ (by simpa using h)]

theorem countFold_getD (s t : Bool) (el : EdgeList) :
    ∀ degs : List Nat, (∀ e ∈ el, e.1 < degs.length ∧ e.2 < degs.length) →
    ∀ u, (el.foldl (countStep s t) degs).getD u 0
      = degs.getD u 0 + countAt (placements s t el) u := by
  induction el with
  | nil =>
    intro degs h u
    simp [placements, countAt]
  | cons e el ih =>
    intro degs h u
    have he := h e (List.mem_cons_self e el)
    have hstep : ∀ e2 ∈ el, e2.1 < (countStep s t degs e).length
        ∧ e2.2 < (countStep s t degs e).length := by
      intro e2 he2
      rw [countStep_length]
      exact h e2 (List.mem_cons_of_mem e he2)
    have hplac : placements s t (e :: el)
        = edgePlacements s t e ++ placements s t el := rfl
    rw [List.foldl_cons, ih (countStep s t degs e) hstep u,
      countStep_getD s t degs e u he.1 he.2, hplac, countAt_append]
    omega

theorem CountDegrees_getD (N : Nat) (s t : Bool) (el : EdgeList)
    (hel : ∀ e ∈ el, e.1 < N ∧ e.2 < N) :
    ∀ u, (CountDegrees N s t el).getD u 0 = countAt (placements s t el) u := by
  intro u
  unfold CountDegrees
  rw [countFold_getD s t el (List.replicate N 0)
    (by simpa [List.length_replicate] using hel) u, replicate_getD]
  omega

theorem mem_edgePlacements {s t : Bool} {e : Edge} {p : Nat × Nat}
    (h : p ∈ edgePlacements s t e) : p = (e.1, e.2) ∨ p = (e.2, e.1) := by
  unfold edgePlacements at h
  rcases List.mem_append.mp h with h2 | h2
  · left
    by_cases hc : (s || (!s && !t)) = true <;> simp [hc] at h2
    exact h2
  · right
    by_cases hc : (s || (!s && t)) = true <;> simp [hc] at h2
    exact h2

theorem placements_bounds {s t : Bool} {el : EdgeList} {N : Nat}
    (hel : ∀ e ∈ el, e.1 < N ∧ e.2 < N) :
    ∀ p ∈ placements s t el, p.1 < N ∧ p.2 < N := by
  intro p hp
  unfold placements at hp
  rcases List.mem_flatten.mp hp with ⟨part, hpart, hpmem⟩
  rcases List.mem_map.mp hpart with ⟨e, hee, hfe⟩
  have hb := hel e hee
  subst hfe
  rcases mem_edgePlacements hpmem with hcase | hcase <;> subst hcase
  · exact ⟨hb.1, hb.2⟩
  · exact ⟨hb.2, hb.1⟩

/-! ### Offsets separate the cursor intervals -/

theorem PrefixSum_getD (deg : List Nat) (i : Nat) (h : i ≤ deg.length) :
    (PrefixSum deg).getD i 0 = (deg.take i).sum := by
  unfold PrefixSum
  rw [prefixSumGo_getD deg 0 i h]
  omega

theorem slotSep_offsets (deg : List Nat) (ps : List (Nat × Nat))
    (hcnt : ∀ u, countAt ps u ≤ deg.getD u 0)
    (hfst : ∀ p ∈ ps, p.1 < deg.length) :
    SlotSep (fun u => (PrefixSum deg).getD u 0) ps := by
  have hbound : ∀ u, 0 < countAt ps u → u < deg.length := by
    intro u hu
    by_contra hc
    have h0 : countAt ps u = 0 := countAt_eq_zero (by
      intro p hp hpe
      have := hfst p hp
      omega)
    omega
  intro u v huv i j hi hj
  have hu := hbound u (by omega)
  have hv := hbound v (by omega)
  have hiu : i < deg.getD u 0 := by have := hcnt u; omega
  have hjv : j < deg.getD v 0 := by have := hcnt v; omega
  show (PrefixSum deg).getD u 0 + i ≠ (PrefixSum deg).getD v 0 + j
  rw [PrefixSum_getD deg u (by omega), PrefixSum_getD deg v (by omega)]
  have hgu : deg.getD u 0 = (deg.take (u + 1)).sum - (deg.take u).sum := by
    have := take_sum_succ deg u hu
    omega
  rcases Nat.lt_or_ge u v with hlt | hge
  · have hsucc := take_sum_succ deg u hu
    have hmono := take_sum_le deg (show u + 1 ≤ v from hlt)
    omega
  · have hvu : v < u := by omega
    have hsucc := take_sum_succ deg v hv
    have hmono := take_sum_le deg (show v + 1 ≤ u from hvu)
    omega

theorem makeCSR_slice (N : Nat) (s t : Bool) (el : EdgeList)
    (hel : ∀ e ∈ el, e.1 < N ∧ e.2 < N) (u : Nat) :
    csrSlice N s t el u = (valsAt (placements s t el) u).map some := by
  have hlen := CountDegrees_length N s t el
  have hgetD := CountDegrees_getD N s t el hel
  have hsep : SlotSep (fun w => (PrefixSum (CountDegrees N s t el)).getD w 0)
      (placements s t el) := by
    apply slotSep_offsets
    · intro w
      rw [hgetD w]
    · intro p hp
      rw [hlen]
      exact (placements_bounds hel p hp).1
  obtain ⟨hmema, _⟩ := scatterGo_mem (placements s t el)
    (fun w => (PrefixSum (CountDegrees N s t el)).getD w 0) (fun _ => none) hsep
  unfold csrSlice makeCSRmem
  rw [ParallelPrefixSum_eq (CountDegrees N s t el), hgetD u]
  have hpoint : ∀ i ∈ List.range (countAt (placements s t el) u),
      (scatterGo (placements s t el)
          (fun w => (PrefixSum (CountDegrees N s t el)).getD w 0)
          (fun _ => none)).2 ((PrefixSum (CountDegrees N s t el)).getD u 0 + i)
        = (valsAt (placements s t el) u)[i]? := by
    intro i hi
    exact hmema u i (List.mem_range.mp hi)
  rw [List.map_congr_left hpoint, countAt_eq_length_valsAt, range_map_getElem?]

theorem placement_of_mem {s t : Bool} {el : EdgeList} {e : Edge} (he : e ∈ el)
    {p : Nat × Nat} (hp : p ∈ edgePlacements s t e) : p ∈ placements s t el := by
  unfold placements
  exact List.mem_flatten.mpr ⟨edgePlacements s t e, List.mem_map.mpr ⟨e, he, rfl⟩, hp⟩

theorem mem_valsAt {ps : List (Nat × Nat)} {p : Nat × Nat} (hp : p ∈ ps) :
    p.2 ∈ valsAt ps p.1 := by
  unfold valsAt
  exact List.mem_map.mpr ⟨p, List.mem_filter.mpr ⟨hp, by simp⟩, rfl⟩

theorem sum_getD_range (l : List Nat) (N : Nat) (h : N = l.length) :
    ((List.range N).map (fun u => l.getD u 0)).sum = l.sum := by
  subst h
  rw [range_map_getD l 0]

theorem offsets_last (deg : List Nat) (N : Nat) (h : deg.length = N) :
    (PrefixSum deg).getD N 0 = deg.sum := by
  subst h
  rw [PrefixSum_getD deg deg.length (le_refl _), List.take_length]

theorem countFold_sum (s t : Bool) (el : EdgeList) :
    ∀ degs : List Nat, (∀ e ∈ el, e.1 < degs.length ∧ e.2 < degs.length) →
    (el.foldl (countStep s t) degs).sum
      = degs.sum + (if s = true then 2 else 1) * el.length := by
  induction el with
  | nil =>
    intro degs _
    simp
  | cons e el ih =>
    intro degs h
    have he := h e (List.mem_cons_self e el)
    have hstep : ∀ e2 ∈ el, e2.1 < (countStep s t degs e).length
        ∧ e2.2 < (countStep s t degs e).length := by
      intro e2 he2
      rw [countStep_length]
      exact h e2 (List.mem_cons_of_mem e he2)
    rw [List.foldl_cons, ih (countStep s t degs e) hstep,
      countStep_sum s t degs e he.1 he.2, List.length_cons]
    cases s
    · rw [show (if (false : Bool) = true then 2 else 1) = 1 from rfl]
      omega
    · rw [show (if (true : Bool) = true then 2 else 1) = 2 from rfl]
      omega

/-- C3: for every edge list whose endpoints are below the node count `N`,
the degree array produced by `CountDegrees` sums to `2 * |el|` when
symmetrizing and to `|el|` otherwise, regardless of the transpose flag
(no self-loops or duplicates are filtered at this stage). -/
theorem C3_CountDegrees_sum (N : Nat) (s t : Bool) (el : EdgeList)
    (hel : ∀ e ∈ el, e.1 < N ∧ e.2 < N) :
    (CountDegrees N s t el).sum = (if s = true then 2 else 1) * el.length := by
  unfold CountDegrees
  rw [countFold_sum s t el (List.replicate N 0) (by simpa using hel)]
  simp

/-- Witness for C3 at a concrete input: symmetrized count of two edges
(one of them a self-loop) totals 4. -/
theorem C3_CountDegrees_sum_witness :
    (CountDegrees 3 true true [(0, 1), (2, 2)]).sum
      = (if true = true then 2 else 1) * ([((0 : Nat), (1 : Nat)), (2, 2)] : EdgeList).length :=
  C3_CountDegrees_sum 3 true true [(0, 1), (2, 2)] (by decide)

/-- C2: the block-parallel prefix sum agrees exactly with the serial one on
every degree array; the offset array has length `N + 1`, starts at `0`,
satisfies `offset[i+1] = offset[i] + degree[i]`, and is monotone
non-decreasing. -/
theorem C2_prefixSum_agree (degrees : List Nat) :
    ParallelPrefixSum degrees = PrefixSum degrees
    ∧ (PrefixSum degrees).length = degrees.length + 1
    ∧ (PrefixSum degrees).getD 0 0 = 0
    ∧ (∀ i, i < degrees.length →
        (PrefixSum degrees).getD (i + 1) 0
          = (PrefixSum degrees).getD i 0 + degrees.getD i 0)
    ∧ (∀ i j, i ≤ j → j ≤ degrees.length →
        (PrefixSum degrees).getD i 0 ≤ (PrefixSum degrees).getD j 0) := by
  refine ⟨ParallelPrefixSum_eq degrees, prefixSumGo_length degrees 0, ?_, ?_, ?_⟩
  · rw [PrefixSum_getD degrees 0 (by omega)]
    simp
  · intro i hi
    rw [PrefixSum_getD degrees (i + 1) (by omega), PrefixSum_getD degrees i (by omega),
      take_sum_succ degrees i hi]
  · intro i j hij hj
    rw [PrefixSum_getD degrees i (by omega), PrefixSum_getD degrees j hj]
    exact take_sum_le degrees hij

/-- Witness for C2 at a concrete degree array, discharging the bound of the
recurrence component at `i = 1`. -/
theorem C2_prefixSum_agree_witness :
    (PrefixSum [3, 1, 2]).getD 2 0
      = (PrefixSum [3, 1, 2]).getD 1 0 + ([3, 1, 2] : List Nat).getD 1 0 :=
  (C2_prefixSum_agree [3, 1, 2]).2.2.2.1 1 (by decide)

/-- C1 (counterexample): with `symmetrize = false`, `transpose = true`, the
edge `(0, 1)` does **not** appear as a destination in node 0's slice — the
transpose pass places only the source record in node 1's slice — refuting
the claim that every edge `(u, v)` lands in `u`'s slice for any flags. -/
theorem C1_counterexample :
    ¬ (some 1 ∈ csrSlice 2 false true [(0, 1)] 0) := by decide

/-- C1 (amended): after the `MakeCSR` scatter pass with endpoints below `N`:
when `symmetrize` or `¬transpose`, each edge's destination `v` appears in
`u`'s slice; when `symmetrize` or `transpose`, the source record `u` appears
in `v`'s slice; the slots assigned by the cursor fetches are pairwise
distinct (no write is ever overwritten); and the total number of entries
across all slices equals `offset[N]`. -/
theorem C1_makeCSR_amended (N : Nat) (s t : Bool) (el : EdgeList)
    (hel : ∀ e ∈ el, e.1 < N ∧ e.2 < N) :
    (∀ e ∈ el, (s || !t) = true → some e.2 ∈ csrSlice N s t el e.1)
    ∧ (∀ e ∈ el, (s || t) = true → some e.1 ∈ csrSlice N s t el e.2)
    ∧ (scatterSlots (placements s t el)
        (fun u => (ParallelPrefixSum (CountDegrees N s t el)).getD u 0)).Nodup
    ∧ ((List.range N).map (fun u => (csrSlice N s t el u).length)).sum
        = (ParallelPrefixSum (CountDegrees N s t el)).getD N 0 := by
  have hgetD := CountDegrees_getD N s t el hel
  have hlen := CountDegrees_length N s t el
  have hsep : SlotSep (fun w => (PrefixSum (CountDegrees N s t el)).getD w 0)
      (placements s t el) := by
    apply slotSep_offsets
    · intro w
      rw [hgetD w]
    · intro p hp
      rw [hlen]
      exact (placements_bounds hel p hp).1
  refine ⟨?_, ?_, ?_, ?_⟩
  · intro e he hcond
    have hc1 : (s || (!s && !t)) = true := by
      cases s <;> cases t <;> simp_all
    have hp : ((e.1 : Nat), (e.2 : Nat)) ∈ edgePlacements s t e := by
      simp [edgePlacements, hc1]
    have hv := mem_valsAt (placement_of_mem he hp)
    rw [makeCSR_slice N s t el hel e.1]
    exact List.mem_map.mpr ⟨e.2, hv, rfl⟩
  · intro e he hcond
    have hc2 : (s || (!s && t)) = true := by
      cases s <;> cases t <;> simp_all
    have hp : ((e.2 : Nat), (e.1 : Nat)) ∈ edgePlacements s t e := by
      simp [edgePlacements, hc2]
    have hv := mem_valsAt (placement_of_mem he hp)
    rw [makeCSR_slice N s t el hel e.2]
    exact List.mem_map.mpr ⟨e.1, hv, rfl⟩
  · have hfun : (fun u => (ParallelPrefixSum (CountDegrees N s t el)).getD u 0)
        = (fun u => (PrefixSum (CountDegrees N s t el)).getD u 0) := by
      funext w
      rw [ParallelPrefixSum_eq]
    rw [hfun]
    exact scatterSlots_nodup (placements s t el) _ hsep
  · have hlen1 : ∀ u ∈ List.range N,
        (csrSlice N s t el u).length = (CountDegrees N s t el).getD u 0 := by
      intro u _
      simp [csrSlice]
    rw [List.map_congr_left hlen1, ParallelPrefixSum_eq,
      offsets_last (CountDegrees N s t el) N hlen,
      sum_getD_range (CountDegrees N s t el) N hlen.symm]

/-- Witness for C1 (amended) at a concrete symmetrized input: edge `(0, 1)`
lands in node 0's slice. -/
theorem C1_makeCSR_amended_witness :
    some 1 ∈ csrSlice 3 true false [(0, 1), (2, 0)] 0 :=
  (C1_makeCSR_amended 3 true false [(0, 1), (2, 0)] (by decide)).1
    (0, 1) (by decide) (by decide)

/-! ### Squish: sort, dedup, self-loop removal -/

theorem squishUniqueGo_sorted (l : List Nat) : ∀ prev, l.Sorted (· ≤ ·) →
    (∀ x ∈ l, prev ≤ x) →
    (squishUniqueGo prev l).Sorted (· < ·)
      ∧ ∀ y ∈ squishUniqueGo prev l, prev < y := by
  induction l with
  | nil =>
    intro prev _ _
    constructor
    · simp [squishUniqueGo]
    · intro y hy
      simp [squishUniqueGo] at hy
  | cons b l ih =>
    intro prev hsort hge
    obtain ⟨hble, hsort2⟩ := List.sorted_cons.mp hsort
    rcases Decidable.em (b = prev) with hb | hb
    · have hgo : squishUniqueGo prev (b :: l) = squishUniqueGo prev l := by
        simp [squishUniqueGo, hb]
      rw [hgo]
      exact ih prev hsort2 (fun x hx => by have := hble x hx; omega)
    · have hgo : squishUniqueGo prev (b :: l) = b :: squishUniqueGo b l := by
        simp [squishUniqueGo, hb]
      have hlt : prev < b := by
        have := hge b (List.mem_cons_self b l)
        omega
      obtain ⟨ihs, ihgt⟩ := ih b hsort2 hble
      rw [hgo]
      constructor
      · exact List.sorted_cons.mpr ⟨fun y hy => ihgt y hy, ihs⟩
      · intro y hy
        rcases List.mem_cons.mp hy with hy0 | hy2
        · omega
        · have := ihgt y hy2
          omega

theorem squishUnique_sorted (l : List Nat) (h : l.Sorted (· ≤ ·)) :
    (squishUnique l).Sorted (· < ·) := by
  cases l with
  | nil => simp [squishUnique]
  | cons a rest =>
    obtain ⟨hble, hsort2⟩ := List.sorted_cons.mp h
    obtain ⟨hs, hgt⟩ := squishUniqueGo_sorted rest a hsort2 hble
    exact List.sorted_cons.mpr ⟨fun y hy => hgt y hy, hs⟩

theorem squishUniqueGo_length (l : List Nat) :
    ∀ prev, (squishUniqueGo prev l).length ≤ l.length := by
  induction l with
  | nil => intro prev; simp [squishUniqueGo]
  | cons b l ih =>
    intro prev
    rcases Decidable.em (b = prev) with hb | hb
    · have hgo : squishUniqueGo prev (b :: l) = squishUniqueGo prev l := by
        simp [squishUniqueGo, hb]
      rw [hgo]
      have := ih prev
      simp only [List.length_cons]
      omega
    · have hgo : squishUniqueGo prev (b :: l) = b :: squishUniqueGo b l := by
        simp [squishUniqueGo, hb]
      rw [hgo]
      have := ih b
      simp only [List.length_cons]
      omega

theorem squishUnique_length (l : List Nat) : (squishUnique l).length ≤ l.length := by
  cases l with
  | nil => simp [squishUnique]
  | cons a rest =>
    have hgo : squishUnique (a :: rest) = a :: squishUniqueGo a rest := rfl
    rw [hgo]
    have := squishUniqueGo_length rest a
    simp only [List.length_cons]
    omega

theorem squishRow_sorted (n : Nat) (row : List Nat) :
    (squishRow n row).Sorted (· < ·) := by
  unfold squishRow
  exact (squishUnique_sorted _ (List.sorted_insertionSort (· ≤ ·) row)).filter _

theorem squishRow_nodup (n : Nat) (row : List Nat) : (squishRow n row).Nodup := by
  exact (squishRow_sorted n row).imp (fun h => Nat.ne_of_lt h)

theorem squishRow_not_mem (n : Nat) (row : List Nat) : n ∉ squishRow n row := by
  intro h
  have hf := List.mem_filter.mp h
  simp at hf

theorem squishRow_length_le (n : Nat) (row : List Nat) :
    (squishRow n row).length ≤ row.length := by
  unfold squishRow
  have h1 := List.length_filter_le (fun v => !(v == n))
    (squishUnique (List.insertionSort (· ≤ ·) row))
  have h2 := squishUnique_length (List.insertionSort (· ≤ ·) row)
  have h3 := (List.perm_insertionSort (· ≤ ·) row).length_eq
  omega

theorem map_length_eq_range (rows : List (List Nat)) :
    rows.map List.length
      = (List.range rows.length).map (fun n => (rows.getD n []).length) := by
  conv_lhs => rw [← range_map_getD rows []]
  rw [List.map_map]
  rfl

/-- C4: after the Squish pass, every node's slice is strictly ascending,
has no duplicates and no self-loop entry, and the total degree does not
increase. -/
theorem C4_squish (rows : List (List Nat)) :
    (∀ n, n < rows.length →
      ((squishCSR rows).getD n []).Sorted (· < ·)
      ∧ ((squishCSR rows).getD n []).Nodup
      ∧ n ∉ (squishCSR rows).getD n []
      ∧ ((squishCSR rows).getD n []).length ≤ (rows.getD n []).length)
    ∧ ((squishCSR rows).map List.length).sum ≤ (rows.map List.length).sum := by
  constructor
  · intro n hn
    have hrow : (squishCSR rows).getD n [] = squishRow n (rows.getD n []) := by
      unfold squishCSR
      exact getD_range_map _ _ hn
    rw [hrow]
    exact ⟨squishRow_sorted n _, squishRow_nodup n _, squishRow_not_mem n _,
      squishRow_length_le n _⟩
  · unfold squishCSR
    rw [List.map_map, map_length_eq_range rows]
    apply List.sum_le_sum
    intro n _
    exact squishRow_length_le n (rows.getD n [])

/-- Witness for C4 at a concrete graph: node 0's slice `[1, 1, 0]` squishes
to `[1]`. -/
theorem C4_squish_witness :
    ((squishCSR [[1, 1, 0], [2]]).getD 0 []).Sorted (· < ·)
    ∧ ((squishCSR [[1, 1, 0], [2]]).getD 0 []).Nodup
    ∧ 0 ∉ (squishCSR [[1, 1, 0], [2]]).getD 0 []
    ∧ ((squishCSR [[1, 1, 0], [2]]).getD 0 []).length
        ≤ (([[1, 1, 0], [2]] : List (List Nat)).getD 0 []).length :=
  (C4_squish [[1, 1, 0], [2]]).1 0 (by decide)

/-- C7 (counterexample): building from the empty edge list with the node
count discovered does not give zero nodes — `FindMaxNodeID` starts its max
reduction at 0, so `num_nodes_ = 0 + 1 = 1`. -/
theorem C7_counterexample : (makeGraphFromEL true []).length ≠ 0 := by decide

/-- C7 (amended): building from an empty EdgeList with discovered node count
is not an error and produces a graph with exactly one node (node 0) and zero
edges: degree array `[0]`, offset array `[0, 0]`, empty adjacency slice, and
neighbor storage of total size zero. -/
theorem C7_empty_build_amended :
    makeGraphFromEL true [] = [[]]
    ∧ (makeGraphFromEL true []).length = 1
    ∧ FindMaxNodeID ([] : EdgeList) + 1 = 1
    ∧ CountDegrees 1 true false [] = [0]
    ∧ ParallelPrefixSum (CountDegrees 1 true false []) = [0, 0]
    ∧ ((makeGraphFromEL true []).map List.length).sum = 0 := by decide

/-- C8 (code bug): `Bucket::iterator::operator<` compares offsets with `==`
when the chunk indices agree, so an iterator is "less" than itself and not
less than a later position in the same chunk; and `operator-` returns the
positive walking distance even when the left iterator precedes the right
one across a chunk boundary, where the signed distance is negative. -/
theorem C8_bucket_iterator_bug :
    iterLt ⟨0, 0⟩ ⟨0, 1⟩ = false
    ∧ iterPos [[5, 7]] ⟨0, 0⟩ < iterPos [[5, 7]] ⟨0, 1⟩
    ∧ iterLt ⟨0, 1⟩ ⟨0, 1⟩ = true
    ∧ iterSub [[5], [7]] ⟨0, 0⟩ ⟨1, 0⟩ = 1
    ∧ (iterPos [[5], [7]] ⟨0, 0⟩ : Int) - (iterPos [[5], [7]] ⟨1, 0⟩ : Int) = -1 := by
  decide

/-- C9: the end-to-end scenario — building and squishing
`[(0,1), (1,0), (0,1), (2,2)]` with symmetrize gives 3 nodes with slices
`[1]`, `[0]`, `[]` (self-loop removed) and total neighbor length 2. -/
theorem C9_end_to_end :
    squishCSR (makeGraphFromEL true [(0, 1), (1, 0), (0, 1), (2, 2)]) = [[1], [0], []]
    ∧ (squishCSR (makeGraphFromEL true [(0, 1), (1, 0), (0, 1), (2, 2)])).length = 3
    ∧ ((squishCSR (makeGraphFromEL true [(0, 1), (1, 0), (0, 1), (2, 2)])).map
        List.length).sum = 2 := by
  decide

/-- C10: for a directed graph, `SquishGraph` passes an assigned
`in_index`/`in_neighs` pair to the result's constructor exactly when the
`invert` template parameter is true; with `invert = false` they are never
assigned (modelled as `none`), so `invert = true` is an implicit
precondition for the reverse adjacency to be meaningful. -/
theorem C10_squishGraph_invert (g : CSRGraphM) (invert : Bool)
    (h : g.directed = true) :
    ((squishGraphM invert g).inRows ≠ none ↔ invert = true) := by
  unfold squishGraphM
  rw [h]
  cases invert <;> simp

/-- Witness for C10 at a concrete directed graph with `invert = false`. -/
theorem C10_squishGraph_invert_witness :
    ((squishGraphM false ⟨true, [[1]], some [[0]]⟩).inRows ≠ none ↔ false = true) :=
  C10_squishGraph_invert ⟨true, [[1]], some [[0]]⟩ false rfl

/-- C6: invoking `RelabelByDegree` on a directed graph is fatal: the error
is reported and the run terminates with the distinguished nonzero status
`-11`; no relabeled graph is ever produced. -/
theorem C6_relabel_directed_fatal (g : CSRGraphM) (h : g.directed = true) :
    RelabelByDegree g = Except.error (-11)
    ∧ (-11 : Int) ≠ 0
    ∧ ∀ g2, RelabelByDegree g ≠ Except.ok g2 := by
  unfold RelabelByDegree
  rw [h]
  refine ⟨by simp, by decide, ?_⟩
  intro g2
  simp

/-- Witness for C6 at a concrete directed graph. -/
theorem C6_relabel_directed_fatal_witness :
    RelabelByDegree ⟨true, [[1]], some [[0]]⟩ = Except.error (-11)
    ∧ (-11 : Int) ≠ 0
    ∧ ∀ g2, RelabelByDegree ⟨true, [[1]], some [[0]]⟩ ≠ Except.ok g2 :=
  C6_relabel_directed_fatal ⟨true, [[1]], some [[0]]⟩ rfl

/-! ### Relabel-by-degree -/

theorem range_map_getElemQ_getD {α : Type} (l : List α) (d : α) :
    (List.range l.length).map (fun i => (l[i]?).getD d) = l := by
  induction l with
  | nil => simp
  | cons a l ih =>
    rw [List.length_cons, List.range_succ_eq_map, List.map_cons, List.map_map]
    have hc : ((fun i => ((a :: l)[i]?).getD d) ∘ Nat.succ) = fun i => (l[i]?).getD d := by
      funext i
      simp
    rw [hc, ih]
    simp

theorem countAt_flatten (ll : List (List (Nat × Nat))) (w : Nat) :
    countAt ll.flatten w = (ll.map (fun l => countAt l w)).sum := by
  induction ll with
  | nil => simp [countAt]
  | cons l ll ih =>
    rw [List.flatten_cons, countAt_append, List.map_cons, List.sum_cons, ih]

theorem valsAt_append (a b : List (Nat × Nat)) (w : Nat) :
    valsAt (a ++ b) w = valsAt a w ++ valsAt b w := by
  simp [valsAt, List.filter_append]

theorem valsAt_flatten (ll : List (List (Nat × Nat))) (w : Nat) :
    valsAt ll.flatten w = (ll.map (fun l => valsAt l w)).flatten := by
  induction ll with
  | nil => simp [valsAt]
  | cons l ll ih =>
    rw [List.flatten_cons, valsAt_append, List.map_cons, List.flatten_cons, ih]

theorem countAt_map_pair (l : List Nat) (a w : Nat) (f : Nat → Nat) :
    countAt (l.map (fun v => (a, f v))) w = if a = w then l.length else 0 := by
  unfold countAt
  rcases Decidable.em (a = w) with h | h
  · subst h
    rw [List.filter_eq_self.mpr (by
      intro p hp
      rcases List.mem_map.mp hp with ⟨v, _, hfv⟩
      subst hfv
      simp)]
    simp
  · rw [List.filter_eq_nil_iff.mpr (by
      intro p hp
      rcases List.mem_map.mp hp with ⟨v, _, hfv⟩
      subst hfv
      simp [h])]
    simp [h]

theorem valsAt_map_pair (l : List Nat) (a w : Nat) (f : Nat → Nat) :
    valsAt (l.map (fun v => (a, f v))) w = if a = w then l.map f else [] := by
  unfold valsAt
  rcases Decidable.em (a = w) with h | h
  · subst h
    rw [List.filter_eq_self.mpr (by
      intro p hp
      rcases List.mem_map.mp hp with ⟨v, _, hfv⟩
      subst hfv
      simp)]
    rw [List.map_map, if_pos rfl]
    rfl
  · rw [List.filter_eq_nil_iff.mpr (by
      intro p hp
      rcases List.mem_map.mp hp with ⟨v, _, hfv⟩
      subst hfv
      simp [h])]
    simp [h]

theorem flatten_ite_unique {α : Type} (c : Nat → List α) {N u0 : Nat} (h : u0 < N) :
    ((List.range N).map (fun u => if u = u0 then c u else [])).flatten = c u0 := by
  induction N with
  | zero => omega
  | succ n ih =>
    rw [List.range_succ, List.map_append, List.flatten_append]
    rcases Nat.lt_or_ge u0 n with hlt | hge
    · rw [ih hlt]
      have hne : ¬ (n = u0) := by omega
      simp [hne]
    · have hu0 : u0 = n := by omega
      subst hu0
      have hz : ∀ u ∈ List.range u0, (if u = u0 then c u else []) = [] := by
        intro u hu
        have hult : u < u0 := List.mem_range.mp hu
        have hne : ¬ (u = u0) := by omega
        simp [hne]
      rw [List.map_congr_left hz]
      simp

theorem degIdSorted_perm (rows : List (List Nat)) :
    List.Perm (degIdSorted rows)
      ((List.range rows.length).map (fun n => ((rows.getD n []).length, n))) :=
  List.perm_insertionSort ge2 _

theorem degIdSorted_length (rows : List (List Nat)) :
    (degIdSorted rows).length = rows.length := by
  rw [(degIdSorted_perm rows).length_eq]
  simp

theorem degIdSorted_snd_perm (rows : List (List Nat)) :
    List.Perm ((degIdSorted rows).map Prod.snd) (List.range rows.length) := by
  have h := (degIdSorted_perm rows).map Prod.snd
  rw [List.map_map] at h
  have h2 : (Prod.snd ∘ fun n => ((rows.getD n []).length, n)) = @id Nat := by
    funext n
    rfl
  rw [h2, List.map_id] at h
  exact h

theorem degIdSorted_snd_nodup (rows : List (List Nat)) :
    ((degIdSorted rows).map Prod.snd).Nodup :=
  ((degIdSorted_snd_perm rows).nodup_iff).mpr (List.nodup_range _)

theorem newIds_lt (rows : List (List Nat)) {u : Nat} (hu : u < rows.length) :
    newIds rows u < rows.length := by
  unfold newIds
  have hmem : u ∈ (degIdSorted rows).map Prod.snd :=
    (degIdSorted_snd_perm rows).mem_iff.mpr (List.mem_range.mpr hu)
  have hlt := List.indexOf_lt_length.mpr hmem
  rwa [List.length_map, degIdSorted_length] at hlt

theorem snd_getD_newIds (rows : List (List Nat)) {u : Nat} (hu : u < rows.length) :
    ((degIdSorted rows).map Prod.snd).getD (newIds rows u) 0 = u := by
  unfold newIds
  have hmem : u ∈ (degIdSorted rows).map Prod.snd :=
    (degIdSorted_snd_perm rows).mem_iff.mpr (List.mem_range.mpr hu)
  have hlt := List.indexOf_lt_length.mpr hmem
  rw [List.getD_eq_getElem _ _ hlt, List.getElem_indexOf hlt]

theorem newIds_inj (rows : List (List Nat)) {u v : Nat} (hu : u < rows.length)
    (hv : v < rows.length) (h : newIds rows u = newIds rows v) : u = v := by
  have h1 := snd_getD_newIds rows hu
  have h2 := snd_getD_newIds rows hv
  rw [h] at h1
  exact h1.symm.trans h2

theorem newIds_getD (rows : List (List Nat)) {w : Nat} (hw : w < rows.length) :
    newIds rows (((degIdSorted rows).map Prod.snd).getD w 0) = w := by
  unfold newIds
  have hlen : w < ((degIdSorted rows).map Prod.snd).length := by
    rw [List.length_map, degIdSorted_length]
    exact hw
  rw [List.getD_eq_getElem _ _ hlen]
  exact List.indexOf_getElem (degIdSorted_snd_nodup rows) w hlen

theorem u0_lt (rows : List (List Nat)) {w : Nat} (hw : w < rows.length) :
    ((degIdSorted rows).map Prod.snd).getD w 0 < rows.length := by
  have hlen : w < ((degIdSorted rows).map Prod.snd).length := by
    rw [List.length_map, degIdSorted_length]
    exact hw
  have hmem : ((degIdSorted rows).map Prod.snd).getD w 0
      ∈ (degIdSorted rows).map Prod.snd := by
    rw [List.getD_eq_getElem _ _ hlen]
    exact List.getElem_mem _
  exact List.mem_range.mp ((degIdSorted_snd_perm rows).mem_iff.mp hmem)

theorem degIdSorted_getD (rows : List (List Nat)) {w : Nat} (hw : w < rows.length) :
    (degIdSorted rows).getD w ((0 : Nat), (0 : Nat))
      = ((rows.getD (((degIdSorted rows).map Prod.snd).getD w 0) []).length,
         ((degIdSorted rows).map Prod.snd).getD w 0) := by
  have hlt : w < (degIdSorted rows).length := by
    rw [degIdSorted_length]
    exact hw
  have hmem : (degIdSorted rows).getD w (0, 0) ∈ degIdSorted rows := by
    rw [List.getD_eq_getElem _ _ hlt]
    exact List.getElem_mem _
  have hmem2 := (degIdSorted_perm rows).mem_iff.mp hmem
  rcases List.mem_map.mp hmem2 with ⟨n, _, heq⟩
  have hsnd : ((degIdSorted rows).map Prod.snd).getD w 0
      = ((degIdSorted rows).getD w (0, 0)).2 := by
    rw [List.getD_eq_getElem _ _ (by rw [List.length_map]; exact hlt),
      List.getD_eq_getElem _ _ hlt, List.getElem_map]
  rw [hsnd, ← heq]

theorem relabelDegrees_length (rows : List (List Nat)) :
    (relabelDegrees rows).length = rows.length := by
  unfold relabelDegrees
  rw [List.length_map, degIdSorted_length]

theorem relabelDegrees_getD (rows : List (List Nat)) {w : Nat} (hw : w < rows.length) :
    (relabelDegrees rows).getD w 0
      = (rows.getD (((degIdSorted rows).map Prod.snd).getD w 0) []).length := by
  have hlt : w < (degIdSorted rows).length := by
    rw [degIdSorted_length]
    exact hw
  unfold relabelDegrees
  rw [List.getD_eq_getElem _ _ (by rw [List.length_map]; exact hlt), List.getElem_map,
    ← List.getD_eq_getElem (degIdSorted rows) ((0 : Nat), (0 : Nat)) hlt,
    degIdSorted_getD rows hw]

theorem degIdSorted_sorted (rows : List (List Nat)) :
    (degIdSorted rows).Sorted ge2 :=
  List.sorted_insertionSort ge2 _

theorem relabelDegrees_max (rows : List (List Nat)) {v : Nat} (hv : v < rows.length) :
    (rows.getD v []).length ≤ (relabelDegrees rows).getD 0 0 := by
  have hmem : ((rows.getD v []).length, v) ∈ degIdSorted rows := by
    apply (degIdSorted_perm rows).mem_iff.mpr
    exact List.mem_map.mpr ⟨v, List.mem_range.mpr hv, rfl⟩
  have hne : degIdSorted rows ≠ [] := by
    intro hnil
    have hl := degIdSorted_length rows
    rw [hnil] at hl
    simp at hl
    omega
  obtain ⟨s, tail, hsp⟩ := List.exists_cons_of_ne_nil hne
  have hsorted := degIdSorted_sorted rows
  rw [hsp] at hsorted hmem
  obtain ⟨hrel, _⟩ := List.sorted_cons.mp hsorted
  have hd0 : (relabelDegrees rows).getD 0 0 = s.1 := by
    unfold relabelDegrees
    rw [hsp]
    rfl
  rw [hd0]
  rcases List.mem_cons.mp hmem with heq | hmem2
  · rw [← heq]
  · have hge := hrel _ hmem2
    unfold ge2 at hge
    have hfst : (((rows.getD v []).length, v)).1 = (rows.getD v []).length := rfl
    rw [hfst] at hge
    omega

theorem relabel_countAt (rows : List (List Nat)) (w : Nat) :
    countAt (relabelPlacements rows) w
      = if w < rows.length then (relabelDegrees rows).getD w 0 else 0 := by
  unfold relabelPlacements
  rw [countAt_flatten, List.map_map]
  have hpt : ∀ u ∈ List.range rows.length,
      ((fun l => countAt l w) ∘ fun u => (rows.getD u []).map
        (fun v => (newIds rows u, newIds rows v))) u
      = if newIds rows u = w then (rows.getD u []).length else 0 := by
    intro u _
    exact countAt_map_pair (rows.getD u []) (newIds rows u) w (newIds rows)
  rw [List.map_congr_left hpt]
  rcases Nat.lt_or_ge w rows.length with hw | hw
  · rw [if_pos hw]
    have hcongr : ∀ u ∈ List.range rows.length,
        (if newIds rows u = w then (rows.getD u []).length else 0)
        = (if u = ((degIdSorted rows).map Prod.snd).getD w 0
            then (rows.getD u []).length else 0) := by
      intro u hu
      have hult := List.mem_range.mp hu
      rcases Decidable.em (newIds rows u = w) with h | h
      · have heq : u = ((degIdSorted rows).map Prod.snd).getD w 0 := by
          rw [← h, snd_getD_newIds rows hult]
        rw [if_pos h, if_pos heq]
      · have hne : ¬ (u = ((degIdSorted rows).map Prod.snd).getD w 0) := by
          intro heq
          apply h
          rw [heq, newIds_getD rows hw]
        rw [if_neg h, if_neg hne]
    rw [List.map_congr_left hcongr,
      sum_ite_unique (fun u => (rows.getD u []).length) (u0_lt rows hw),
      relabelDegrees_getD rows hw]
  · rw [if_neg (by omega)]
    have hz : ∀ u ∈ List.range rows.length,
        (if newIds rows u = w then (rows.getD u []).length else 0) = 0 := by
      intro u hu
      have hult := List.mem_range.mp hu
      have hlt := newIds_lt rows hult
      have hne : ¬ (newIds rows u = w) := by omega
      simp [hne]
    rw [List.map_congr_left hz]
    simp

theorem relabel_valsAt (rows : List (List Nat)) {w : Nat} (hw : w < rows.length) :
    valsAt (relabelPlacements rows) w
      = (rows.getD (((degIdSorted rows).map Prod.snd).getD w 0) []).map
          (newIds rows) := by
  unfold relabelPlacements
  rw [valsAt_flatten, List.map_map]
  have hpt : ∀ u ∈ List.range rows.length,
      ((fun l => valsAt l w) ∘ fun u => (rows.getD u []).map
        (fun v => (newIds rows u, newIds rows v))) u
      = if newIds rows u = w then (rows.getD u []).map (newIds rows) else [] := by
    intro u _
    exact valsAt_map_pair (rows.getD u []) (newIds rows u) w (newIds rows)
  rw [List.map_congr_left hpt]
  have hcongr : ∀ u ∈ List.range rows.length,
      (if newIds rows u = w then (rows.getD u []).map (newIds rows) else [])
      = (if u = ((degIdSorted rows).map Prod.snd).getD w 0
          then (rows.getD u []).map (newIds rows) else []) := by
    intro u hu
    have hult := List.mem_range.mp hu
    rcases Decidable.em (newIds rows u = w) with h | h
    · have heq : u = ((degIdSorted rows).map Prod.snd).getD w 0 := by
        rw [← h, snd_getD_newIds rows hult]
      rw [if_pos h, if_pos heq]
    · have hne : ¬ (u = ((degIdSorted rows).map Prod.snd).getD w 0) := by
        intro heq
        apply h
        rw [heq, newIds_getD rows hw]
      rw [if_neg h, if_neg hne]
  rw [List.map_congr_left hcongr,
    flatten_ite_unique (fun u => (rows.getD u []).map (newIds rows)) (u0_lt rows hw)]

theorem relabelRows_getD (rows : List (List Nat)) {w : Nat} (hw : w < rows.length) :
    (relabelRows rows).getD w []
      = List.insertionSort (· ≤ ·) (valsAt (relabelPlacements rows) w) := by
  have hlen := relabelDegrees_length rows
  have hsep : SlotSep (fun x => (PrefixSum (relabelDegrees rows)).getD x 0)
      (relabelPlacements rows) := by
    apply slotSep_offsets
    · intro x
      rw [relabel_countAt rows x]
      rcases Nat.lt_or_ge x rows.length with hx | hx
      · rw [if_pos hx]
      · rw [if_neg (by omega)]
        omega
    · intro p hp
      rw [hlen]
      unfold relabelPlacements at hp
      rcases List.mem_flatten.mp hp with ⟨part, hpart, hpmem⟩
      rcases List.mem_map.mp hpart with ⟨u, hu, hfu⟩
      subst hfu
      rcases List.mem_map.mp hpmem with ⟨v, _, hfv⟩
      subst hfv
      exact newIds_lt rows (List.mem_range.mp hu)
  obtain ⟨hmema, _⟩ := scatterGo_mem (relabelPlacements rows)
    (fun x => (PrefixSum (relabelDegrees rows)).getD x 0) (fun _ => none) hsep
  have hdef : relabelRows rows
      = (List.range rows.length).map
          (fun w2 => List.insertionSort (· ≤ ·)
            ((List.range ((relabelDegrees rows).getD w2 0)).map
              (fun i => ((scatterGo (relabelPlacements rows)
                  (fun x => (ParallelPrefixSum (relabelDegrees rows)).getD x 0)
                  (fun _ => none)).2
                ((ParallelPrefixSum (relabelDegrees rows)).getD w2 0 + i)).getD 0))) := rfl
  rw [hdef, ParallelPrefixSum_eq (relabelDegrees rows), getD_range_map _ _ hw]
  congr 1
  have hcnt : (relabelDegrees rows).getD w 0 = countAt (relabelPlacements rows) w := by
    rw [relabel_countAt rows w, if_pos hw]
  rw [hcnt, countAt_eq_length_valsAt]
  have hpoint : ∀ i ∈ List.range (valsAt (relabelPlacements rows) w).length,
      ((scatterGo (relabelPlacements rows)
          (fun x => (PrefixSum (relabelDegrees rows)).getD x 0) (fun _ => none)).2
        ((PrefixSum (relabelDegrees rows)).getD w 0 + i)).getD 0
      = ((valsAt (relabelPlacements rows) w)[i]?).getD 0 := by
    intro i hi
    have hi2 : i < countAt (relabelPlacements rows) w := by
      rw [countAt_eq_length_valsAt]
      exact List.mem_range.mp hi
    rw [hmema w i hi2]
  rw [List.map_congr_left hpoint, range_map_getElemQ_getD]

/-- C5: for every undirected graph (given as per-node rows),
`RelabelByDegree` yields a permutation `newIds` of the node range under
which every node's new slice is a permutation of its translated old
neighbor list (so the multiset of edges is preserved under the relabeling),
the node receiving new id 0 has maximum or tied-maximum degree, and every
new slice is sorted ascending. -/
theorem C5_relabel (rows : List (List Nat)) :
    (∀ u, u < rows.length → newIds rows u < rows.length)
    ∧ (∀ u v, u < rows.length → v < rows.length →
        newIds rows u = newIds rows v → u = v)
    ∧ (∀ u, u < rows.length →
        List.Perm ((relabelRows rows).getD (newIds rows u) [])
          ((rows.getD u []).map (newIds rows)))
    ∧ (∀ u, u < rows.length → newIds rows u = 0 →
        ∀ v, v < rows.length →
          (rows.getD v []).length ≤ (rows.getD u []).length)
    ∧ (∀ w, w < rows.length → ((relabelRows rows).getD w []).Sorted (· ≤ ·)) := by
  refine ⟨?_, ?_, ?_, ?_, ?_⟩
  · intro u hu
    exact newIds_lt rows hu
  · intro u v hu hv h
    exact newIds_inj rows hu hv h
  · intro u hu
    have hw := newIds_lt rows hu
    rw [relabelRows_getD rows hw, relabel_valsAt rows hw, snd_getD_newIds rows hu]
    exact List.perm_insertionSort (· ≤ ·) _
  · intro u hu h0 v hv
    have hu0 : ((degIdSorted rows).map Prod.snd).getD 0 0 = u := by
      have hs := snd_getD_newIds rows hu
      rw [h0] at hs
      exact hs
    have hmax := relabelDegrees_max rows hv
    have hdeg : (relabelDegrees rows).getD 0 0 = (rows.getD u []).length := by
      rw [relabelDegrees_getD rows (show 0 < rows.length by omega), hu0]
    omega
  · intro w hw
    rw [relabelRows_getD rows hw]
    exact List.sorted_insertionSort (· ≤ ·) _

/-- Witness for C5 at a concrete undirected graph: node 0 (degree 2) keeps
new id 0 and its relabeled slice is a permutation of its translated
neighbors. -/
theorem C5_relabel_witness :
    List.Perm ((relabelRows [[1, 2], [0], [0]]).getD (newIds [[1, 2], [0], [0]] 0) [])
      ((([[1, 2], [0], [0]] : List (List Nat)).getD 0 []).map
        (newIds [[1, 2], [0], [0]])) :=
  (C5_relabel [[1, 2], [0], [0]]).2.2.1 0 (by decide)
